import Mathlib

/-!
Verification of the ParcelService TSP core.

This file gives a shallow embedding of the algorithmic functions of the
repository (src/distance.py, src/tsp_solver.py, src/tsp.py) and proves the
specified properties about them.

Modelling conventions:
* Python floats are modelled by an arbitrary linearly ordered additive
  commutative monoid `α` for the purely order-and-sum based tour code
  (instantiated at `ℤ` in concrete witnesses, and satisfied by `ℝ`), and by
  `ℝ` for the trigonometric distance function `haversine`.
* Python list indexing, which accepts end-relative negative indices and
  raises `IndexError` otherwise, is modelled by `pyGet` and `pySet`
  returning `Option`; code that can raise returns `Option` (`none` models
  an uncaught Python exception).
* `float('inf')` used as the initial running minimum in the greedy scan is
  modelled by `Option α` with `none` standing for infinity.
-/

namespace ParcelService

/-- Python `l[i]` for `i : ℤ`: end-relative for negative `i`, `none` models
`IndexError`. -/
def pyGet {β : Type} (l : List β) (i : Int) : Option β :=
  if 0 ≤ i then l[i.toNat]?
  else if 0 ≤ i + l.length then l[(i + l.length).toNat]?
  else none

/-- Python `l[i] = v` for `i : ℤ`: end-relative for negative `i`, `none`
models `IndexError`. -/
def pySet {β : Type} (l : List β) (i : Int) (v : β) : Option (List β) :=
  if 0 ≤ i then
    if i.toNat < l.length then some (l.set i.toNat v) else none
  else if 0 ≤ i + l.length then some (l.set (i + l.length).toNat v) else none

/-- Python `range(a, b)` (step 1, clamped to empty when `b ≤ a`). -/
def pyRange (a b : ℕ) : List ℕ := List.range' a (b - a)

/-! ## GeoDistance (src/distance.py, haversine)

`math.radians`, then
`a = sin(dlat/2)**2 + cos(lat1)*cos(lat2)*sin(dlon/2)**2`,
`c = 2 * asin(sqrt(a))`, returning `c * 6371`.
The value handed to `asin` is `sqrt a`; `haversineArg` names `a` so that the
domain of the inverse-sine step can be stated. -/

noncomputable def radians (x : ℝ) : ℝ := x * (Real.pi / 180)

/-- The value `a` of the haversine formula (the square of the argument
reaching the inverse-sine step). -/
noncomputable def haversineArg (lat1 lon1 lat2 lon2 : ℝ) : ℝ :=
  Real.sin ((radians lat2 - radians lat1) / 2) ^ 2 +
    Real.cos (radians lat1) * Real.cos (radians lat2) *
      Real.sin ((radians lon2 - radians lon1) / 2) ^ 2

/-- Embedding of `haversine(lat1, lon1, lat2, lon2)`: great-circle
distance in km, Earth radius 6371. -/
noncomputable def haversine (lat1 lon1 lat2 lon2 : ℝ) : ℝ :=
  2 * Real.arcsin (Real.sqrt (haversineArg lat1 lon1 lat2 lon2)) * 6371

/-! ## TourConstructor (src/tsp_solver.py, greedy_tsp) -/

variable {α : Type} [LinearOrderedAddCommMonoid α]

/-- The inner candidate scan of `greedy_tsp`:
`for candidate in range(n): if not visited[candidate] and
matrix[current][candidate] < min_distance: ...`.
`next_place : Option ℕ` is Python's `next_place` (`none` = `None`);
`min_distance : Option α` models `float('inf')` as `none`.  The outer
`Option` models an `IndexError` while scanning. -/
def selectNext (row : List α) (visited : List Bool) :
    List ℕ → Option ℕ → Option α → Option (Option ℕ)
  | [], next_place, _ => some next_place
  | candidate :: rest, next_place, min_distance => do
    let v ← visited[candidate]?
    if v then
      selectNext row visited rest next_place min_distance
    else do
      let d ← row[candidate]?
      match min_distance with
      | none => selectNext row visited rest (some candidate) (some d)
      | some m =>
        if d < m then selectNext row visited rest (some candidate) (some d)
        else selectNext row visited rest next_place min_distance

/-- The body of `for _ in range(n - 1)` in `greedy_tsp`, iterated `k` times:
`current = path[-1]`, scan for the nearest unvisited candidate, append it to
`path` and mark it visited.  Selecting no candidate (`next_place` still
`None`) is Python's `visited[None]` `TypeError`, modelled by `none`. -/
def greedyVisit (matrix : List (List α)) :
    ℕ → List Bool → List Int → Option (List Bool × List Int)
  | 0, visited, path => some (visited, path)
  | k + 1, visited, path => do
    let current ← pyGet path (-1)
    let row ← pyGet matrix current
    let np ← selectNext row visited (List.range matrix.length) none none
    match np with
    | none => none
    | some c => do
      let visited2 ← pySet visited (c : Int) true
      greedyVisit matrix k visited2 (path ++ [(c : Int)])

/-- Embedding of `greedy_tsp(distance_matrix, start_index)`:
`n = len(distance_matrix)`, `visited = [False] * n`, `path = [start_index]`,
`visited[start_index] = True`, then visit the remaining `n - 1` places. -/
def greedy_tsp (matrix : List (List α)) (start_index : Int) :
    Option (List Int) := do
  let visited := List.replicate matrix.length false
  let path := [start_index]
  let visited2 ← pySet visited start_index true
  let r ← greedyVisit matrix (matrix.length - 1) visited2 path
  some r.2

/-! ## TourOptimizer (src/tsp_solver.py, calculate_path_distance,
two_opt_swap, two_opt_improvement) -/

/-- The accumulation loop of `calculate_path_distance`:
`for i in range(len(path) - 1): total += matrix[path[i]][path[i + 1]]`. -/
def distLoop (matrix : List (List α)) : List Int → α → Option α
  | a :: b :: rest, total => do
    let row ← pyGet matrix a
    let d ← pyGet row b
    distLoop matrix (b :: rest) (total + d)
  | _, total => some total

/-- Embedding of `calculate_path_distance(path, distance_matrix)`: total
of consecutive edge distances, starting from `total = 0`. -/
def calculate_path_distance (path : List Int) (matrix : List (List α)) :
    Option α :=
  distLoop matrix path 0

/-- Embedding of `two_opt_swap(path, i, j)`:
`path[:i] + list(reversed(path[i:j + 1])) + path[j + 1:]`. -/
def two_opt_swap (path : List Int) (i j : ℕ) : List Int :=
  path.take i ++
    (((path.drop i).take (j + 1 - i)).reverse ++ path.drop (j + 1))

/-- The inner `for j in range(i + 1, len(best_path) - 1)` scan of
`two_opt_improvement`: returns `some (some (new_path, new_distance))` on the
first improving swap, `some none` when the scan completes without
improvement, and `none` when `calculate_path_distance` raises. -/
def scanJ (matrix : List (List α)) (best : List Int) (bd : α) (i : ℕ) :
    List ℕ → Option (Option (List Int × α))
  | [] => some none
  | j :: js =>
    match calculate_path_distance (two_opt_swap best i j) matrix with
    | none => none
    | some nd =>
      if nd < bd then some (some (two_opt_swap best i j, nd))
      else scanJ matrix best bd i js

/-- The outer `for i in range(1, len(best_path) - 2)` scan of
`two_opt_improvement`, with the `break`-out-of-both-loops behaviour on the
first improving swap. -/
def scanI (matrix : List (List α)) (best : List Int) (bd : α) :
    List ℕ → Option (Option (List Int × α))
  | [] => some none
  | i :: rest =>
    match scanJ matrix best bd i (pyRange (i + 1) (best.length - 1)) with
    | none => none
    | some (some res) => some (some res)
    | some none => scanI matrix best bd rest

/-- One full pass of the pair scan of `two_opt_improvement` over
`1 <= i < j <= len(best_path) - 2`, returning the first improving swap. -/
def findImprovement (matrix : List (List α)) (best : List Int) (bd : α) :
    Option (Option (List Int × α)) :=
  scanI matrix best bd (pyRange 1 (best.length - 2))

/-- Predicate deciding whether a candidate tour has a defined path
distance strictly below `bd`; the termination measure of the
`while improved` loop counts the permutations satisfying it. -/
def distLt (matrix : List (List α)) (bd : α) (q : List Int) : Bool :=
  match calculate_path_distance q matrix with
  | some d => decide (d < bd)
  | none => false

/-! ## Claim C1: haversine domain safety and range -/

theorem radians_lat_mem (lat : ℝ) (h1 : -90 ≤ lat) (h2 : lat ≤ 90) :
    -(Real.pi / 2) ≤ radians lat ∧ radians lat ≤ Real.pi / 2 := by
  have h180 : (0 : ℝ) ≤ Real.pi / 180 := by positivity
  constructor
  · have := mul_le_mul_of_nonneg_right h1 h180
    rw [radians]; nlinarith [this]
  · have := mul_le_mul_of_nonneg_right h2 h180
    rw [radians]; nlinarith [this]

theorem haversineArg_nonneg (lat1 lon1 lat2 lon2 : ℝ)
    (h1 : -90 ≤ lat1) (h2 : lat1 ≤ 90) (h3 : -90 ≤ lat2) (h4 : lat2 ≤ 90) :
    0 ≤ haversineArg lat1 lon1 lat2 lon2 := by
  have hu := radians_lat_mem lat1 h1 h2
  have hv := radians_lat_mem lat2 h3 h4
  have hcu : 0 ≤ Real.cos (radians lat1) :=
    Real.cos_nonneg_of_mem_Icc ⟨hu.1, hu.2⟩
  have hcv : 0 ≤ Real.cos (radians lat2) :=
    Real.cos_nonneg_of_mem_Icc ⟨hv.1, hv.2⟩
  rw [haversineArg]
  exact add_nonneg (sq_nonneg _)
    (mul_nonneg (mul_nonneg hcu hcv) (sq_nonneg _))

theorem haversineArg_le_one (lat1 lon1 lat2 lon2 : ℝ)
    (h1 : -90 ≤ lat1) (h2 : lat1 ≤ 90) (h3 : -90 ≤ lat2) (h4 : lat2 ≤ 90) :
    haversineArg lat1 lon1 lat2 lon2 ≤ 1 := by
  have hu := radians_lat_mem lat1 h1 h2
  have hv := radians_lat_mem lat2 h3 h4
  have hcu : 0 ≤ Real.cos (radians lat1) :=
    Real.cos_nonneg_of_mem_Icc ⟨hu.1, hu.2⟩
  have hcv : 0 ≤ Real.cos (radians lat2) :=
    Real.cos_nonneg_of_mem_Icc ⟨hv.1, hv.2⟩
  rw [haversineArg]
  have e : Real.sin ((radians lat2 - radians lat1) / 2) ^ 2 =
      1 / 2 - Real.cos (radians lat2 - radians lat1) / 2 := by
    rw [Real.sin_sq, Real.cos_sq,
      show 2 * ((radians lat2 - radians lat1) / 2) =
        radians lat2 - radians lat1 by ring]
    ring
  rw [e, Real.cos_sub]
  have hadd : Real.cos (radians lat1 + radians lat2) =
      Real.cos (radians lat1) * Real.cos (radians lat2) -
        Real.sin (radians lat1) * Real.sin (radians lat2) := Real.cos_add _ _
  have hle1 : Real.cos (radians lat1 + radians lat2) ≤ 1 := Real.cos_le_one _
  have hs1 : Real.sin ((radians lon2 - radians lon1) / 2) ^ 2 ≤ 1 :=
    Real.sin_sq_le_one _
  nlinarith [mul_nonneg (mul_nonneg hcu hcv) (sub_nonneg.mpr hs1)]

/-- C1: for every pair of points with latitude in `[-90, 90]` and longitude
in `[-180, 180]`, the argument reaching the inverse-sine step of `haversine`
lies in `[-1, 1]` (so the computation never leaves the domain of `asin`),
and the returned distance lies in `[0, 2 * π * 6371]` kilometres. -/
theorem haversine_asin_domain_and_range (lat1 lon1 lat2 lon2 : ℝ)
    (h1 : -90 ≤ lat1) (h2 : lat1 ≤ 90) (h3 : -90 ≤ lat2) (h4 : lat2 ≤ 90)
    (h5 : -180 ≤ lon1) (h6 : lon1 ≤ 180) (h7 : -180 ≤ lon2)
    (h8 : lon2 ≤ 180) :
    (-1 ≤ Real.sqrt (haversineArg lat1 lon1 lat2 lon2) ∧
        Real.sqrt (haversineArg lat1 lon1 lat2 lon2) ≤ 1) ∧
      0 ≤ haversine lat1 lon1 lat2 lon2 ∧
        haversine lat1 lon1 lat2 lon2 ≤ 2 * Real.pi * 6371 := by
  have harg0 := haversineArg_nonneg lat1 lon1 lat2 lon2 h1 h2 h3 h4
  have harg1 := haversineArg_le_one lat1 lon1 lat2 lon2 h1 h2 h3 h4
  have hs0 : 0 ≤ Real.sqrt (haversineArg lat1 lon1 lat2 lon2) :=
    Real.sqrt_nonneg _
  have hs1 : Real.sqrt (haversineArg lat1 lon1 lat2 lon2) ≤ 1 :=
    Real.sqrt_le_one.mpr harg1
  have ha0 : 0 ≤ Real.arcsin (Real.sqrt (haversineArg lat1 lon1 lat2 lon2)) :=
    Real.arcsin_nonneg.mpr hs0
  have ha2 : Real.arcsin (Real.sqrt (haversineArg lat1 lon1 lat2 lon2)) ≤
      Real.pi / 2 := Real.arcsin_le_pi_div_two _
  refine ⟨⟨by linarith, hs1⟩, ?_, ?_⟩
  · rw [haversine]; nlinarith
  · rw [haversine]; nlinarith [Real.pi_pos]

/-- Witness for C1 at the concrete coordinates `(0, 0)` and `(0, 0)`. -/
theorem haversine_asin_domain_and_range_witness :
    (-1 ≤ Real.sqrt (haversineArg 0 0 0 0) ∧
        Real.sqrt (haversineArg 0 0 0 0) ≤ 1) ∧
      0 ≤ haversine 0 0 0 0 ∧ haversine 0 0 0 0 ≤ 2 * Real.pi * 6371 :=
  haversine_asin_domain_and_range 0 0 0 0 (by norm_num) (by norm_num)
    (by norm_num) (by norm_num) (by norm_num) (by norm_num) (by norm_num)
    (by norm_num)

/-! ## Claims C2 and C3: greedy_tsp error behaviour on bad start indices -/

/-- C2 (amended): `greedy_tsp` signals an error (modelled by `none`)
whenever the start index is outside `[-n, n)` for an `n x n` matrix; a
negative start index in `[-n, -1]` is interpreted end-relatively by Python
list indexing and does not signal an error. -/
theorem greedy_tsp_start_out_of_pyrange_fails {α : Type}
    [LinearOrderedAddCommMonoid α] (matrix : List (List α)) (start : Int)
    (h : start < -(matrix.length : Int) ∨ (matrix.length : Int) ≤ start) :
    greedy_tsp matrix start = none := by
  have hset :
      pySet (List.replicate matrix.length false) start true = none := by
    simp only [pySet, List.length_replicate]
    rcases h with h | h
    · rw [if_neg (by omega), if_neg (by omega)]
    · rw [if_pos (by omega), if_neg (by omega)]
  simp [greedy_tsp, hset]

/-- Witness for C2's amended claim: a 1 x 1 matrix with start index 5. -/
theorem greedy_tsp_start_out_of_pyrange_fails_witness :
    greedy_tsp ([[0]] : List (List Int)) 5 = none :=
  greedy_tsp_start_out_of_pyrange_fails [[0]] 5 (Or.inr (by norm_num))

/-- Counterexample to C2 as stated: for the 1 x 1 matrix and the negative
start index `-1`, `greedy_tsp` does not signal an error; it returns the
tour `[-1]`. -/
theorem greedy_tsp_negative_start_no_error :
    greedy_tsp ([[0]] : List (List Int)) (-1) = some [-1] := by decide

/-- C3: on the empty (0 x 0) distance matrix, `greedy_tsp` raises an index
error at `visited[start_index] = True` (modelled by `none`); it does not
return an empty tour.  The code contradicts the spec's guarantee that the
core tolerates an empty point sequence. -/
theorem greedy_tsp_empty_matrix_raises :
    greedy_tsp ([] : List (List Int)) 0 = none := by decide

/-! ## Claim C4: greedy_tsp returns a permutation beginning with start -/

theorem perm_range_of_nodup_lt_length {l : List ℕ} {n : ℕ} (hnd : l.Nodup)
    (hlt : ∀ x ∈ l, x < n) (hlen : l.length = n) :
    l.Perm (List.range n) := by
  have hsub : l ⊆ List.range n := fun x hx => List.mem_range.mpr (hlt x hx)
  exact (List.subperm_of_subset hnd hsub).perm_of_length_le (by simp [hlen])

theorem pyGet_neg_one {β : Type} (l : List β) (h : l ≠ []) :
    pyGet l (-1) = l.getLast? := by
  have hl : 0 < l.length := List.length_pos.mpr h
  rw [pyGet, if_neg (by omega), if_pos (by omega),
    show ((-1 : Int) + l.length).toNat = l.length - 1 by omega,
    List.getLast?_eq_getElem?]

theorem selectNext_spec {α : Type} [LinearOrderedAddCommMonoid α]
    (row : List α) (visited : List Bool) :
    ∀ (cs : List ℕ) (np : Option ℕ) (md : Option α),
      (∀ c ∈ cs, c < visited.length ∧ c < row.length) →
      (np = none → md = none) →
      (∀ c, np = some c → visited[c]? = some false) →
      ((∃ c ∈ cs, visited[c]? = some false) ∨ ∃ c, np = some c) →
      ∃ c2, selectNext row visited cs np md = some (some c2) ∧
        visited[c2]? = some false := by
  intro cs
  induction cs with
  | nil =>
    intro np md _ _ hnp hex
    rcases hex with ⟨c, hc, _⟩ | ⟨c, hc⟩
    · exact absurd hc (List.not_mem_nil c)
    · exact ⟨c, by simp [selectNext, hc], hnp c hc⟩
  | cons c rest ih =>
    intro np md hbound hnpmd hnp hex
    have hc := hbound c (List.mem_cons_self c rest)
    have hv : visited[c]? = some visited[c] := List.getElem?_eq_getElem hc.1
    have hd : row[c]? = some row[c] := List.getElem?_eq_getElem hc.2
    have hbound2 : ∀ x ∈ rest, x < visited.length ∧ x < row.length :=
      fun x hx => hbound x (List.mem_cons_of_mem c hx)
    by_cases hvt : visited[c] = true
    · have hstep : selectNext row visited (c :: rest) np md =
          selectNext row visited rest np md := by
        simp [selectNext, hv, hvt]
      rw [hstep]
      refine ih np md hbound2 hnpmd hnp ?_
      rcases hex with ⟨c3, hc3, hfalse⟩ | h
      · rcases List.mem_cons.mp hc3 with rfl | hmem
        · rw [hv, hvt] at hfalse; cases hfalse
        · exact Or.inl ⟨c3, hmem, hfalse⟩
      · exact Or.inr h
    · have hvf : visited[c]? = some false := by
        rw [hv]; simp [Bool.eq_false_iff.mpr hvt]
      match hmd : md with
      | none =>
        have hstep : selectNext row visited (c :: rest) np none =
            selectNext row visited rest (some c) (some row[c]) := by
          simp [selectNext, hv, hd, hvt]
        rw [hstep]
        refine ih (some c) (some row[c]) hbound2 (by intro h; cases h) ?_
          (Or.inr ⟨c, rfl⟩)
        intro c3 hc3
        rw [Option.some_inj] at hc3
        exact hc3 ▸ hvf
      | some m =>
        by_cases hlt : row[c] < m
        · have hstep : selectNext row visited (c :: rest) np (some m) =
              selectNext row visited rest (some c) (some row[c]) := by
            simp [selectNext, hv, hd, hvt, hlt]
          rw [hstep]
          refine ih (some c) (some row[c]) hbound2 (by intro h; cases h) ?_
            (Or.inr ⟨c, rfl⟩)
          intro c3 hc3
          rw [Option.some_inj] at hc3
          exact hc3 ▸ hvf
        · have hstep : selectNext row visited (c :: rest) np (some m) =
              selectNext row visited rest np (some m) := by
            simp [selectNext, hv, hd, hvt, hlt]
          rw [hstep]
          refine ih np (some m) hbound2 ?_ hnp (Or.inr ?_)
          · intro h
            cases hnpmd h
          · cases hnpv : np with
            | none => cases hnpmd hnpv
            | some c4 => exact ⟨c4, rfl⟩

theorem greedyVisit_spec {α : Type} [LinearOrderedAddCommMonoid α]
    (matrix : List (List α))
    (hsq : ∀ row ∈ matrix, row.length = matrix.length) :
    ∀ (k : ℕ) (visited : List Bool) (pathN : List ℕ),
      visited.length = matrix.length →
      (∀ i, i < matrix.length → (visited[i]? = some true ↔ i ∈ pathN)) →
      pathN.Nodup → pathN ≠ [] → (∀ x ∈ pathN, x < matrix.length) →
      pathN.length + k = matrix.length →
      ∃ (q : List ℕ) (vf : List Bool),
        greedyVisit matrix k visited (pathN.map fun x : ℕ => (x : Int)) =
          some (vf, (pathN ++ q).map fun x : ℕ => (x : Int)) ∧
        (pathN ++ q).Nodup ∧ (∀ x ∈ pathN ++ q, x < matrix.length) ∧
        (pathN ++ q).length = matrix.length := by
  intro k
  induction k with
  | zero =>
    intro visited pathN _ _ hnd hne hlt hlen
    refine ⟨[], visited, ?_, by simpa using hnd, by simpa using hlt,
      by simpa using hlen⟩
    simp [greedyVisit]
  | succ k ih =>
    intro visited pathN hvlen hinv hnd hne hlt hlen
    have hmapne : pathN.map (fun x : ℕ => (x : Int)) ≠ [] := by
      simpa using hne
    have hc0 : pathN.getLast? = some (pathN.getLast hne) :=
      List.getLast?_eq_getLast pathN hne
    set c0 := pathN.getLast hne with hc0def
    have hc0mem : c0 ∈ pathN := List.getLast_mem hne
    have hc0lt : c0 < matrix.length := hlt c0 hc0mem
    have hcur : pyGet (pathN.map fun x : ℕ => (x : Int)) (-1) =
        some ((c0 : Int)) := by
      rw [pyGet_neg_one _ hmapne, List.getLast?_map, hc0]
      rfl
    have hrowget : pyGet matrix ((c0 : Int)) = some matrix[c0] := by
      rw [pyGet, if_pos (by omega), Int.toNat_ofNat]
      exact List.getElem?_eq_getElem hc0lt
    have hrowlen : matrix[c0].length = matrix.length :=
      hsq matrix[c0] (List.getElem_mem hc0lt)
    -- there is an unvisited index
    have hunvis : ∃ c ∈ List.range matrix.length,
        visited[c]? = some false := by
      have hplen : pathN.length < matrix.length := by omega
      have hex : ∃ i, i < matrix.length ∧ i ∉ pathN := by
        by_contra hall
        push_neg at hall
        have hsub : List.range matrix.length ⊆ pathN := by
          intro i hi
          exact hall i (List.mem_range.mp hi)
        have := (List.subperm_of_subset (List.nodup_range _) hsub).length_le
        simp at this
        omega
      obtain ⟨i, hi, hni⟩ := hex
      refine ⟨i, List.mem_range.mpr hi, ?_⟩
      have hib : visited[i]? = some visited[i] :=
        List.getElem?_eq_getElem (by omega)
      have : visited[i] ≠ true := by
        intro ht
        exact hni ((hinv i hi).mp (by rw [hib, ht]))
      rw [hib, Bool.eq_false_iff.mpr this]
    obtain ⟨c2, hsel, hc2f⟩ := selectNext_spec matrix[c0] visited
      (List.range matrix.length) none none
      (by
        intro c hcmem
        have := List.mem_range.mp hcmem
        constructor <;> omega)
      (fun _ => rfl) (by intro c h; cases h) (Or.inl hunvis)
    have hc2lt : c2 < matrix.length := by
      by_contra hge
      rw [List.getElem?_eq_none (by omega)] at hc2f
      cases hc2f
    have hc2notmem : c2 ∉ pathN := by
      intro hmem
      rw [(hinv c2 hc2lt).mpr hmem] at hc2f
      cases hc2f
    have hsetv : pySet visited ((c2 : Int)) true =
        some (visited.set c2 true) := by
      rw [pySet, if_pos (by omega), Int.toNat_ofNat, if_pos (by omega)]
    -- the new invariant
    have hinv2 : ∀ i, i < matrix.length →
        ((visited.set c2 true)[i]? = some true ↔ i ∈ pathN ++ [c2]) := by
      intro i hi
      by_cases hic : i = c2
      · subst hic
        rw [List.getElem?_set_self (by omega)]
        simp
      · rw [List.getElem?_set_ne (fun h => hic h.symm)]
        rw [hinv i hi]
        simp [hic]
    have hnd2 : (pathN ++ [c2]).Nodup := by
      rw [List.nodup_append]
      refine ⟨hnd, List.nodup_singleton c2, ?_⟩
      intro x hx hx2
      rw [List.mem_singleton] at hx2
      exact hc2notmem (hx2 ▸ hx)
    have hlt2 : ∀ x ∈ pathN ++ [c2], x < matrix.length := by
      intro x hx
      rcases List.mem_append.mp hx with hx | hx
      · exact hlt x hx
      · rw [List.mem_singleton] at hx
        omega
    obtain ⟨q, vf, heq, hprops⟩ := ih (visited.set c2 true) (pathN ++ [c2])
      (by simp [hvlen]) hinv2 hnd2 (by simp) hlt2 (by simp; omega)
    refine ⟨c2 :: q, vf, ?_, ?_, ?_, ?_⟩
    · have hstep : greedyVisit matrix (k + 1) visited
          (pathN.map fun x : ℕ => (x : Int)) =
          greedyVisit matrix k (visited.set c2 true)
            ((pathN.map fun x : ℕ => (x : Int)) ++ [(c2 : Int)]) := by
        simp [greedyVisit, hcur, hrowget, hsel, hsetv]
      rw [hstep]
      rw [show (pathN.map fun x : ℕ => (x : Int)) ++ [(c2 : Int)] =
        (pathN ++ [c2]).map fun x : ℕ => (x : Int) by simp]
      rw [heq]
      rw [show (pathN ++ [c2]) ++ q = pathN ++ (c2 :: q) by simp]
    · have := hprops.1
      rwa [show (pathN ++ [c2]) ++ q = pathN ++ (c2 :: q) by simp] at this
    · have := hprops.2.1
      rwa [show (pathN ++ [c2]) ++ q = pathN ++ (c2 :: q) by simp] at this
    · have := hprops.2.2
      rwa [show (pathN ++ [c2]) ++ q = pathN ++ (c2 :: q) by simp] at this

/-- C4: for every square matrix with `n >= 1` and every start index in
`[0, n)`, `greedy_tsp` succeeds and returns a tour of length `n` that is a
permutation of `0..n-1` whose first element is `start`. -/
theorem greedy_tsp_returns_permutation {α : Type}
    [LinearOrderedAddCommMonoid α] (matrix : List (List α)) (start : ℕ)
    (hsq : ∀ row ∈ matrix, row.length = matrix.length)
    (h1 : 1 ≤ matrix.length) (hs : start < matrix.length) :
    ∃ p : List ℕ,
      greedy_tsp matrix ((start : Int)) = some (p.map fun x : ℕ => (x : Int)) ∧
      p.Perm (List.range matrix.length) ∧ p.head? = some start := by
  have hset : pySet (List.replicate matrix.length false) ((start : Int))
      true = some ((List.replicate matrix.length false).set start true) := by
    rw [pySet, if_pos (by omega), Int.toNat_ofNat, if_pos (by simp; omega)]
  have hinv : ∀ i, i < matrix.length →
      (((List.replicate matrix.length false).set start true)[i]? =
          some true ↔ i ∈ [start]) := by
    intro i hi
    by_cases his : i = start
    · subst his
      rw [List.getElem?_set_self (by simp; omega)]
      simp
    · rw [List.getElem?_set_ne (fun h => his h.symm),
        List.getElem?_replicate, if_pos hi]
      simp [his]
  obtain ⟨q, vf, heq, hnd, hlt, hlen⟩ := greedyVisit_spec matrix hsq
    (matrix.length - 1) ((List.replicate matrix.length false).set start true)
    [start] (by simp) hinv (List.nodup_singleton start) (by simp)
    (by intro x hx; rw [List.mem_singleton] at hx; omega) (by simp; omega)
  refine ⟨start :: q, ?_, ?_, rfl⟩
  · have : ([start] : List ℕ).map (fun x : ℕ => (x : Int)) = [(start : Int)] :=
      rfl
    rw [this] at heq
    simp [greedy_tsp, hset, heq]
  · exact perm_range_of_nodup_lt_length (by simpa using hnd)
      (by simpa using hlt) (by simpa using hlen)

/-- Witness for C4: the 2 x 2 matrix `[[0, 1], [1, 0]]` with start 0. -/
theorem greedy_tsp_returns_permutation_witness :
    ∃ p : List ℕ,
      greedy_tsp ([[0, 1], [1, 0]] : List (List Int)) ((0 : ℕ) : Int) =
        some (p.map fun x : ℕ => (x : Int)) ∧
      p.Perm (List.range 2) ∧ p.head? = some 0 :=
  greedy_tsp_returns_permutation [[0, 1], [1, 0]] 0 (by decide) (by decide)
    (by decide)

/-! ## Properties of two_opt_swap and the pair scan -/

theorem mem_pyRange {a b j : ℕ} (h : j ∈ pyRange a b) : a ≤ j ∧ j < b := by
  rw [pyRange, List.mem_range'_1] at h
  omega

theorem two_opt_swap_perm (p : List Int) (i j : ℕ) (hij : i ≤ j + 1) :
    (two_opt_swap p i j).Perm p := by
  have hd : p.drop (j + 1) = (p.drop i).drop (j + 1 - i) := by
    rw [List.drop_drop]
    congr 1
    omega
  have h1 : two_opt_swap p i j = p.take i ++
      (((p.drop i).take (j + 1 - i)).reverse ++
        ((p.drop i).drop (j + 1 - i))) := by rw [two_opt_swap, hd]
  rw [h1]
  have h2 := List.Perm.append_left (p.take i)
    (List.Perm.append_right ((p.drop i).drop (j + 1 - i))
      (List.reverse_perm ((p.drop i).take (j + 1 - i))))
  rw [List.take_append_drop (j + 1 - i) (p.drop i)] at h2
  rw [List.take_append_drop i p] at h2
  exact h2

theorem two_opt_swap_head (p : List Int) (i j : ℕ) (hi : 1 ≤ i)
    (hp : p ≠ []) : (two_opt_swap p i j).head? = p.head? := by
  cases p with
  | nil => exact absurd rfl hp
  | cons a t =>
    cases i with
    | zero => omega
    | succ i2 =>
      rw [two_opt_swap, List.take_succ_cons, List.cons_append,
        List.head?_cons, List.head?_cons]

theorem getLast?_drop_of_lt (p : List Int) (k : ℕ) (hk : k < p.length) :
    (p.drop k).getLast? = p.getLast? := by
  have hne : p.drop k ≠ [] := by
    intro h
    have := congrArg List.length h
    simp at this
    omega
  conv_rhs => rw [← List.take_append_drop k p]
  rw [List.getLast?_append_of_ne_nil _ hne]

theorem two_opt_swap_getLast (p : List Int) (i j : ℕ)
    (hj : j + 2 ≤ p.length) :
    (two_opt_swap p i j).getLast? = p.getLast? := by
  have hne : p.drop (j + 1) ≠ [] := by
    intro h
    have := congrArg List.length h
    simp at this
    omega
  have hne2 : ((p.drop i).take (j + 1 - i)).reverse ++ p.drop (j + 1) ≠ [] := by
    intro h
    exact hne (List.append_eq_nil.mp h).2
  rw [two_opt_swap, List.getLast?_append_of_ne_nil _ hne2,
    List.getLast?_append_of_ne_nil _ hne,
    getLast?_drop_of_lt p (j + 1) (by omega)]

theorem scanJ_eq_some {α : Type} [LinearOrderedAddCommMonoid α]
    (matrix : List (List α)) (best : List Int) (bd : α) (i : ℕ) :
    ∀ (js : List ℕ) (p2 : List Int) (bd2 : α),
      scanJ matrix best bd i js = some (some (p2, bd2)) →
      ∃ j ∈ js, p2 = two_opt_swap best i j ∧
        calculate_path_distance p2 matrix = some bd2 ∧ bd2 < bd := by
  intro js
  induction js with
  | nil =>
    intro p2 bd2 h
    simp [scanJ] at h
  | cons j js ih =>
    intro p2 bd2 h
    cases hcd : calculate_path_distance (two_opt_swap best i j) matrix with
    | none => simp [scanJ, hcd] at h
    | some nd =>
      by_cases hlt : nd < bd
      · rw [scanJ, hcd] at h
        simp only [if_pos hlt, Option.some_inj, Prod.mk.injEq] at h
        obtain ⟨h1, h2⟩ := h
        subst h2
        refine ⟨j, List.mem_cons_self j js, h1.symm, ?_, hlt⟩
        rw [← h1]
        exact hcd
      · rw [scanJ, hcd] at h
        simp only [if_neg hlt] at h
        obtain ⟨j2, hj2, hrest⟩ := ih p2 bd2 h
        exact ⟨j2, List.mem_cons_of_mem j hj2, hrest⟩

theorem scanI_eq_some {α : Type} [LinearOrderedAddCommMonoid α]
    (matrix : List (List α)) (best : List Int) (bd : α) :
    ∀ (cs : List ℕ) (p2 : List Int) (bd2 : α),
      scanI matrix best bd cs = some (some (p2, bd2)) →
      ∃ i ∈ cs, ∃ j ∈ pyRange (i + 1) (best.length - 1),
        p2 = two_opt_swap best i j ∧
        calculate_path_distance p2 matrix = some bd2 ∧ bd2 < bd := by
  intro cs
  induction cs with
  | nil =>
    intro p2 bd2 h
    simp [scanI] at h
  | cons i cs ih =>
    intro p2 bd2 h
    cases hsj : scanJ matrix best bd i (pyRange (i + 1) (best.length - 1))
      with
    | none => rw [scanI, hsj] at h; cases h
    | some res =>
      cases res with
      | none =>
        rw [scanI, hsj] at h
        obtain ⟨i2, hi2, hrest⟩ := ih p2 bd2 h
        exact ⟨i2, List.mem_cons_of_mem i hi2, hrest⟩
      | some pr =>
        rw [scanI, hsj] at h
        rw [Option.some_inj, Option.some_inj] at h
        obtain ⟨j, hj, hrest⟩ := scanJ_eq_some matrix best bd i _ p2 bd2
          (by rw [hsj, h])
        exact ⟨i, List.mem_cons_self i cs, j, hj, hrest⟩

theorem findImprovement_spec {α : Type} [LinearOrderedAddCommMonoid α]
    (matrix : List (List α)) (best : List Int) (bd : α) (p2 : List Int)
    (bd2 : α) (h : findImprovement matrix best bd = some (some (p2, bd2))) :
    calculate_path_distance p2 matrix = some bd2 ∧ bd2 < bd ∧
      p2.Perm best ∧ p2.head? = best.head? ∧ p2.getLast? = best.getLast? := by
  obtain ⟨i, hi, j, hj, hswap, hdist, hlt⟩ :=
    scanI_eq_some matrix best bd _ p2 bd2 h
  have hi2 := mem_pyRange hi
  have hj2 := mem_pyRange hj
  have hlen : j + 2 ≤ best.length := by omega
  have hbne : best ≠ [] := by
    rw [← List.length_pos]
    omega
  subst hswap
  exact ⟨hdist, hlt, two_opt_swap_perm best i j (by omega),
    two_opt_swap_head best i j (by omega) hbne,
    two_opt_swap_getLast best i j hlen⟩

/-! ## Termination of the while-improved loop -/

theorem countP_lt_of_mem {β : Type} (l : List β) (p q : β → Bool)
    (himp : ∀ x ∈ l, p x = true → q x = true) (x : β) (hx : x ∈ l)
    (hqx : q x = true) (hpx : p x = false) :
    List.countP p l < List.countP q l := by
  induction l with
  | nil => cases hx
  | cons a t ih =>
    rw [List.countP_cons, List.countP_cons]
    have himpt : ∀ y ∈ t, p y = true → q y = true :=
      fun y hy => himp y (List.mem_cons_of_mem a hy)
    rcases List.mem_cons.mp hx with rfl | hxt
    · have hmono := List.countP_mono_left himpt
      simp only [hpx, hqx]
      simp
      omega
    · have hstrict := ih himpt hxt
      have ha := himp a (List.mem_cons_self a t)
      by_cases hpa : p a = true
      · simp only [hpa, ha hpa]
        simp
        omega
      · simp only [Bool.eq_false_iff.mpr hpa]
        simp
        split <;> omega

theorem distLt_iff {α : Type} [LinearOrderedAddCommMonoid α]
    (matrix : List (List α)) (bd : α) (q : List Int) :
    distLt matrix bd q = true ↔
      ∃ d, calculate_path_distance q matrix = some d ∧ d < bd := by
  constructor
  · intro h
    simp only [distLt] at h
    split at h
    · next d hd => exact ⟨d, hd, of_decide_eq_true h⟩
    · cases h
  · intro hex
    obtain ⟨d, hd, hlt⟩ := hex
    simp only [distLt, hd]
    exact decide_eq_true hlt

theorem findImprovement_measure {α : Type} [LinearOrderedAddCommMonoid α]
    (matrix : List (List α)) (path p2 : List Int) (bd bd2 : α)
    (h : findImprovement matrix path bd = some (some (p2, bd2))) :
    List.countP (distLt matrix bd2) p2.permutations <
      List.countP (distLt matrix bd) path.permutations := by
  obtain ⟨hdist, hlt, hperm, _, _⟩ :=
    findImprovement_spec matrix path bd p2 bd2 h
  rw [List.Perm.countP_eq _ hperm.permutations]
  refine countP_lt_of_mem _ _ _ ?_ p2 (List.mem_permutations.mpr hperm)
    ?_ ?_
  · intro x _ hx
    rw [distLt_iff] at hx ⊢
    obtain ⟨d, hd, hlt2⟩ := hx
    exact ⟨d, hd, hlt2.trans hlt⟩
  · rw [distLt_iff]
    exact ⟨bd2, hdist, hlt⟩
  · rw [Bool.eq_false_iff]
    intro hcontra
    rw [distLt_iff] at hcontra
    obtain ⟨d, hd, hlt2⟩ := hcontra
    rw [hdist, Option.some_inj] at hd
    rw [hd] at hlt2
    exact absurd hlt2 (lt_irrefl d)

/-- The `while improved` loop of `two_opt_improvement`: keep replacing the
current best path by the first improving 2-opt swap; stop (returning the
path) when a full pair scan finds none; propagate errors.  Terminates
because each accepted swap strictly decreases the tour length over a fixed
finite set of permutations of the tour. -/
def twoOptLoop {α : Type} [LinearOrderedAddCommMonoid α]
    (matrix : List (List α)) (path : List Int) (bd : α) :
    Option (List Int) :=
  match hfi : findImprovement matrix path bd with
  | none => none
  | some none => some path
  | some (some (p2, bd2)) => twoOptLoop matrix p2 bd2
termination_by List.countP (distLt matrix bd) path.permutations
decreasing_by
  exact findImprovement_measure matrix path p2 bd bd2 hfi

/-- Embedding of `two_opt_improvement(path, distance_matrix)`: compute
the initial `best_distance`, then run the while-improved loop. -/
def two_opt_improvement {α : Type} [LinearOrderedAddCommMonoid α]
    (path : List Int) (matrix : List (List α)) : Option (List Int) := do
  let bd ← calculate_path_distance path matrix
  twoOptLoop matrix path bd

/-- Fuel-indexed variant of `twoOptLoop`, used to state that the loop
terminates within a bounded number of accepted moves. -/
def twoOptFuel {α : Type} [LinearOrderedAddCommMonoid α]
    (matrix : List (List α)) : ℕ → List Int → α → Option (List Int)
  | 0, _, _ => none
  | k + 1, path, bd =>
    match findImprovement matrix path bd with
    | none => none
    | some none => some path
    | some (some (p2, bd2)) => twoOptFuel matrix k p2 bd2

/-! ## Behaviour of the while-improved loop -/

theorem twoOptLoop_eq_none {α : Type} [LinearOrderedAddCommMonoid α]
    (matrix : List (List α)) (p : List Int) (bd : α)
    (h : findImprovement matrix p bd = none) :
    twoOptLoop matrix p bd = none := by
  rw [twoOptLoop]
  split
  · rfl
  · next hfi => rw [h] at hfi; cases hfi
  · next p2 bd2 hfi => rw [h] at hfi; cases hfi

theorem twoOptLoop_no_improvement {α : Type} [LinearOrderedAddCommMonoid α]
    (matrix : List (List α)) (p : List Int) (bd : α)
    (h : findImprovement matrix p bd = some none) :
    twoOptLoop matrix p bd = some p := by
  rw [twoOptLoop]
  split
  · next hfi => rw [h] at hfi; cases hfi
  · rfl
  · next p2 bd2 hfi =>
    rw [h] at hfi
    simp at hfi

theorem twoOptLoop_eq_step {α : Type} [LinearOrderedAddCommMonoid α]
    (matrix : List (List α)) (p : List Int) (bd : α) (p2 : List Int)
    (bd2 : α) (h : findImprovement matrix p bd = some (some (p2, bd2))) :
    twoOptLoop matrix p bd = twoOptLoop matrix p2 bd2 := by
  rw [twoOptLoop]
  split
  · next hfi => rw [h] at hfi; cases hfi
  · next hfi => rw [h] at hfi; simp at hfi
  · next p3 bd3 hfi =>
    rw [h] at hfi
    simp only [Option.some_inj, Prod.mk.injEq] at hfi
    rw [hfi.1, hfi.2]

theorem twoOptLoop_spec {α : Type} [LinearOrderedAddCommMonoid α]
    (matrix : List (List α)) :
    ∀ (N : ℕ) (p : List Int) (bd : α) (r : List Int),
      List.countP (distLt matrix bd) p.permutations < N →
      calculate_path_distance p matrix = some bd →
      twoOptLoop matrix p bd = some r →
      (∃ br, calculate_path_distance r matrix = some br ∧ br ≤ bd ∧
        findImprovement matrix r br = some none) ∧
      r.Perm p ∧ r.head? = p.head? ∧ r.getLast? = p.getLast? := by
  intro N
  induction N with
  | zero =>
    intro p bd r hm _ _
    exact absurd hm (Nat.not_lt_zero _)
  | succ N ih =>
    intro p bd r hm hd hrun
    rw [twoOptLoop] at hrun
    split at hrun
    · cases hrun
    · next hfi =>
      rw [Option.some_inj] at hrun
      subst hrun
      exact ⟨⟨bd, hd, le_refl bd, hfi⟩, List.Perm.refl _, rfl, rfl⟩
    · next p2 bd2 hfi =>
      have hspec := findImprovement_spec matrix p bd p2 bd2 hfi
      have hmeas := findImprovement_measure matrix p p2 bd bd2 hfi
      obtain ⟨⟨br, hbr, hle, hconv⟩, hperm, hh, hl⟩ :=
        ih p2 bd2 r (by omega) hspec.1 hrun
      exact ⟨⟨br, hbr, hle.trans (le_of_lt hspec.2.1), hconv⟩,
        hperm.trans hspec.2.2.1, hh.trans hspec.2.2.2.1,
        hl.trans hspec.2.2.2.2⟩

theorem two_opt_improvement_eq_loop {α : Type} [LinearOrderedAddCommMonoid α]
    (path : List Int) (matrix : List (List α)) (r : List Int)
    (h : two_opt_improvement path matrix = some r) :
    ∃ d, calculate_path_distance path matrix = some d ∧
      twoOptLoop matrix path d = some r := by
  cases hd : calculate_path_distance path matrix with
  | none =>
    rw [two_opt_improvement, hd] at h
    exact Option.noConfusion h
  | some d =>
    rw [two_opt_improvement, hd] at h
    exact ⟨d, rfl, h⟩

/-! ## Claim C5: two_opt_improvement never increases the tour length -/

/-- C5: every accepted 2-opt move has a strictly smaller
`calculate_path_distance` than the best distance before the move, and the
final tour returned by `two_opt_improvement` has a length less than or
equal to the input tour's length. -/
theorem two_opt_improvement_never_increases {α : Type}
    [LinearOrderedAddCommMonoid α] (matrix : List (List α)) :
    (∀ (p : List Int) (bd : α) (p2 : List Int) (bd2 : α),
        findImprovement matrix p bd = some (some (p2, bd2)) →
        calculate_path_distance p2 matrix = some bd2 ∧ bd2 < bd) ∧
    (∀ (path : List Int) (d : α) (r : List Int),
        calculate_path_distance path matrix = some d →
        two_opt_improvement path matrix = some r →
        ∃ d2, calculate_path_distance r matrix = some d2 ∧ d2 ≤ d) := by
  constructor
  · intro p bd p2 bd2 h
    have hspec := findImprovement_spec matrix p bd p2 bd2 h
    exact ⟨hspec.1, hspec.2.1⟩
  · intro path d r hd hrun
    obtain ⟨d0, hd0, hloop⟩ := two_opt_improvement_eq_loop path matrix r hrun
    rw [hd, Option.some_inj] at hd0
    subst hd0
    obtain ⟨⟨br, hbr, hle, _⟩, _⟩ := twoOptLoop_spec matrix
      (List.countP (distLt matrix d) path.permutations + 1) path d r
      (Nat.lt_succ_self _) hd hloop
    exact ⟨br, hbr, hle⟩

/-- Witness for C5 on a concrete 4 x 4 integer matrix: the accepted move
`[0,2,1,3] -> [0,1,2,3]` strictly decreases the length (3 < 201), and a
locally optimal tour is returned unchanged with length 3 <= 3. -/
theorem two_opt_improvement_never_increases_witness :
    (calculate_path_distance [0, 1, 2, 3]
        ([[0, 1, 100, 1], [1, 0, 1, 100], [100, 1, 0, 1], [1, 100, 1, 0]] :
          List (List Int)) = some 3 ∧ (3 : Int) < 201) ∧
    ∃ d2, calculate_path_distance [0, 1, 2, 3]
        ([[0, 1, 100, 1], [1, 0, 1, 100], [100, 1, 0, 1], [1, 100, 1, 0]] :
          List (List Int)) = some d2 ∧ d2 ≤ 3 := by
  constructor
  · exact (two_opt_improvement_never_increases
      ([[0, 1, 100, 1], [1, 0, 1, 100], [100, 1, 0, 1], [1, 100, 1, 0]] :
        List (List Int))).1 [0, 2, 1, 3] 201 [0, 1, 2, 3] 3 (by decide)
  · refine (two_opt_improvement_never_increases
      ([[0, 1, 100, 1], [1, 0, 1, 100], [100, 1, 0, 1], [1, 100, 1, 0]] :
        List (List Int))).2 [0, 1, 2, 3] 3 [0, 1, 2, 3] (by decide) ?_
    rw [two_opt_improvement, show calculate_path_distance [0, 1, 2, 3]
      ([[0, 1, 100, 1], [1, 0, 1, 100], [100, 1, 0, 1], [1, 100, 1, 0]] :
        List (List Int)) = some 3 from by decide]
    exact twoOptLoop_no_improvement _ _ _ (by decide)

/-! ## Claim C6: two_opt_improvement is idempotent -/

/-- C6: applying `two_opt_improvement` a second time to its own output
returns that output unchanged. -/
theorem two_opt_improvement_idempotent {α : Type}
    [LinearOrderedAddCommMonoid α] (matrix : List (List α))
    (path r : List Int) (h : two_opt_improvement path matrix = some r) :
    two_opt_improvement r matrix = some r := by
  obtain ⟨d, hd, hloop⟩ := two_opt_improvement_eq_loop path matrix r h
  obtain ⟨⟨br, hbr, _, hconv⟩, _⟩ := twoOptLoop_spec matrix
    (List.countP (distLt matrix d) path.permutations + 1) path d r
    (Nat.lt_succ_self _) hd hloop
  rw [two_opt_improvement, hbr]
  exact twoOptLoop_no_improvement matrix r br hconv

/-- Witness for C6 at the tour `[0,1,2,3]` and the 4 x 4 matrix above. -/
theorem two_opt_improvement_idempotent_witness :
    two_opt_improvement ([0, 1, 2, 3] : List Int)
      ([[0, 1, 100, 1], [1, 0, 1, 100], [100, 1, 0, 1], [1, 100, 1, 0]] :
        List (List Int)) = some [0, 1, 2, 3] := by
  refine two_opt_improvement_idempotent _ [0, 1, 2, 3] [0, 1, 2, 3] ?_
  rw [two_opt_improvement, show calculate_path_distance [0, 1, 2, 3]
    ([[0, 1, 100, 1], [1, 0, 1, 100], [100, 1, 0, 1], [1, 100, 1, 0]] :
      List (List Int)) = some 3 from by decide]
  exact twoOptLoop_no_improvement _ _ _ (by decide)

/-! ## Claim C7: termination of the optimization loop -/

theorem twoOptFuel_eq_loop {α : Type} [LinearOrderedAddCommMonoid α]
    (matrix : List (List α)) :
    ∀ (N : ℕ) (p : List Int) (bd : α),
      List.countP (distLt matrix bd) p.permutations < N →
      twoOptFuel matrix N p bd = twoOptLoop matrix p bd := by
  intro N
  induction N with
  | zero =>
    intro p bd hm
    exact absurd hm (Nat.not_lt_zero _)
  | succ N ih =>
    intro p bd hm
    cases hfi : findImprovement matrix p bd with
    | none => rw [twoOptFuel, hfi, twoOptLoop_eq_none matrix p bd hfi]
    | some o =>
      cases o with
      | none =>
        rw [twoOptFuel, hfi, twoOptLoop_no_improvement matrix p bd hfi]
      | some pr =>
        obtain ⟨p2, bd2⟩ := pr
        rw [twoOptFuel, hfi, twoOptLoop_eq_step matrix p bd p2 bd2 hfi]
        refine ih p2 bd2 ?_
        have := findImprovement_measure matrix p p2 bd bd2 hfi
        omega

/-- C7: the while-improved loop of `two_opt_improvement` terminates for
every input tour and matrix: there is a fuel bound, at most the number of
distinct permutations of the tour plus one, within which the fuel-indexed
loop computes exactly `two_opt_improvement` (each accepted move strictly
decreases the tour length, so only finitely many accepted moves occur). -/
theorem two_opt_improvement_terminates {α : Type}
    [LinearOrderedAddCommMonoid α] (matrix : List (List α))
    (path : List Int) :
    ∃ k, k ≤ path.permutations.length + 1 ∧
      Option.bind (calculate_path_distance path matrix)
        (twoOptFuel matrix k path) = two_opt_improvement path matrix := by
  cases hd : calculate_path_distance path matrix with
  | none =>
    refine ⟨1, by omega, ?_⟩
    rw [two_opt_improvement, hd]
    rfl
  | some d =>
    refine ⟨List.countP (distLt matrix d) path.permutations + 1, ?_, ?_⟩
    · have := @List.countP_le_length (List Int) (distLt matrix d)
        path.permutations
      omega
    · rw [two_opt_improvement, hd]
      show twoOptFuel matrix _ path d = twoOptLoop matrix path d
      exact twoOptFuel_eq_loop matrix _ path d (Nat.lt_succ_self _)

/-! ## Claim C8: two_opt_improvement holds the endpoints fixed -/

/-- C8: the tour returned by `two_opt_improvement` has the same length as
the input tour, the same first element, and the same last element: only
interior segments are ever reversed. -/
theorem two_opt_improvement_fixes_endpoints {α : Type}
    [LinearOrderedAddCommMonoid α] (matrix : List (List α))
    (path r : List Int) (h : two_opt_improvement path matrix = some r) :
    r.length = path.length ∧ r.head? = path.head? ∧
      r.getLast? = path.getLast? := by
  obtain ⟨d, hd, hloop⟩ := two_opt_improvement_eq_loop path matrix r h
  obtain ⟨_, hperm, hh, hl⟩ := twoOptLoop_spec matrix
    (List.countP (distLt matrix d) path.permutations + 1) path d r
    (Nat.lt_succ_self _) hd hloop
  exact ⟨hperm.length_eq, hh, hl⟩

/-- Witness for C8: the optimization of `[0,2,1,3]` over the 4 x 4 matrix
above returns `[0,1,2,3]`, which keeps position 0 and the last position. -/
theorem two_opt_improvement_fixes_endpoints_witness :
    ([0, 1, 2, 3] : List Int).length = ([0, 2, 1, 3] : List Int).length ∧
    ([0, 1, 2, 3] : List Int).head? = ([0, 2, 1, 3] : List Int).head? ∧
    ([0, 1, 2, 3] : List Int).getLast? =
      ([0, 2, 1, 3] : List Int).getLast? := by
  refine two_opt_improvement_fixes_endpoints
    ([[0, 1, 100, 1], [1, 0, 1, 100], [100, 1, 0, 1], [1, 100, 1, 0]] :
      List (List Int)) [0, 2, 1, 3] [0, 1, 2, 3] ?_
  rw [two_opt_improvement, show calculate_path_distance [0, 2, 1, 3]
    ([[0, 1, 100, 1], [1, 0, 1, 100], [100, 1, 0, 1], [1, 100, 1, 0]] :
      List (List Int)) = some 201 from by decide]
  show twoOptLoop _ [0, 2, 1, 3] 201 = some [0, 1, 2, 3]
  rw [twoOptLoop_eq_step _ [0, 2, 1, 3] 201 [0, 1, 2, 3] 3 (by decide)]
  exact twoOptLoop_no_improvement _ _ _ (by decide)

/-! ## Claim C9: short paths and the pair scan -/

/-- Counterexample to C9 as stated: for the path `[0, 1]` (length 2 <= 3)
and the 1 x 1 distance matrix `[[0]]`, `two_opt_improvement` does not
return the input path; it raises an index error (modelled by `none`) while
computing the initial path distance, because index 1 is out of range. -/
theorem two_opt_improvement_bad_index_crash :
    two_opt_improvement ([0, 1] : List Int) ([[0]] : List (List Int)) ≠
      some [0, 1] := by decide

/-- C9 (amended): for every path of length at most 3 whose initial
`calculate_path_distance` computation succeeds, `two_opt_improvement`
returns the input path unchanged: the pair-scan ranges are empty, so no
swap is ever attempted. -/
theorem two_opt_improvement_short_path_fixed {α : Type}
    [LinearOrderedAddCommMonoid α] (matrix : List (List α))
    (path : List Int) (d : α) (hlen : path.length ≤ 3)
    (hd : calculate_path_distance path matrix = some d) :
    two_opt_improvement path matrix = some path := by
  have hempty : pyRange 1 (path.length - 2) = [] := by
    rw [pyRange, show path.length - 2 - 1 = 0 by omega]
    rfl
  have hfi : findImprovement matrix path d = some none := by
    rw [findImprovement, hempty, scanI]
  rw [two_opt_improvement, hd]
  exact twoOptLoop_no_improvement matrix path d hfi

/-- Witness for C9's amended claim: the path `[0, 0]` over the 1 x 1
matrix `[[5]]`. -/
theorem two_opt_improvement_short_path_fixed_witness :
    two_opt_improvement ([0, 0] : List Int) ([[5]] : List (List Int)) =
      some [0, 0] :=
  two_opt_improvement_short_path_fixed [[5]] [0, 0] 5 (by decide)
    (by decide)

/-! ## Claim C10: two_opt_swap preserves the elements of the tour -/

/-- C10: for `i <= j < len(path)`, `two_opt_swap` returns a permutation of
the input of the same length whose prefix before `i` and suffix after `j`
are unchanged and whose segment `[i, j]` is reversed. -/
theorem two_opt_swap_preserves_elements (path : List Int) (i j : ℕ)
    (hij : i ≤ j) (hj : j < path.length) :
    (two_opt_swap path i j).Perm path ∧
    (two_opt_swap path i j).length = path.length ∧
    (two_opt_swap path i j).take i = path.take i ∧
    (two_opt_swap path i j).drop (j + 1) = path.drop (j + 1) ∧
    ((two_opt_swap path i j).drop i).take (j + 1 - i) =
      ((path.drop i).take (j + 1 - i)).reverse := by
  have hperm := two_opt_swap_perm path i j (by omega)
  have hA : (path.take i).length = i := by
    rw [List.length_take]
    omega
  have hB : (((path.drop i).take (j + 1 - i)).reverse).length = j + 1 - i := by
    rw [List.length_reverse, List.length_take, List.length_drop]
    omega
  have hdrop : ∀ (A X : List Int) (n : ℕ), A.length = n →
      (A ++ X).drop n = X := by
    intro A X n h
    subst h
    exact List.drop_left A X
  have htake : ∀ (A X : List Int) (n : ℕ), A.length = n →
      (A ++ X).take n = A := by
    intro A X n h
    subst h
    exact List.take_left A X
  refine ⟨hperm, hperm.length_eq, ?_, ?_, ?_⟩
  · rw [two_opt_swap, List.take_append_of_le_length (by omega),
      List.take_take]
    congr 1
    omega
  · rw [two_opt_swap, ← List.append_assoc]
    refine hdrop _ _ _ ?_
    rw [List.length_append, hA, hB]
    omega
  · rw [two_opt_swap,
      hdrop (path.take i)
        (((path.drop i).take (j + 1 - i)).reverse ++ path.drop (j + 1)) i hA]
    exact htake _ _ _ hB

/-- Witness for C10 at the path `[3, 4, 5, 6]` with `i = 1`, `j = 2`. -/
theorem two_opt_swap_preserves_elements_witness :
    (two_opt_swap [3, 4, 5, 6] 1 2).Perm [3, 4, 5, 6] ∧
    (two_opt_swap [3, 4, 5, 6] 1 2).length =
      ([3, 4, 5, 6] : List Int).length ∧
    (two_opt_swap [3, 4, 5, 6] 1 2).take 1 =
      ([3, 4, 5, 6] : List Int).take 1 ∧
    (two_opt_swap [3, 4, 5, 6] 1 2).drop 3 =
      ([3, 4, 5, 6] : List Int).drop 3 ∧
    ((two_opt_swap [3, 4, 5, 6] 1 2).drop 1).take 2 =
      ((([3, 4, 5, 6] : List Int).drop 1).take 2).reverse :=
  two_opt_swap_preserves_elements [3, 4, 5, 6] 1 2 (by decide) (by decide)

end ParcelService
